import Mathlib

/-!
Verification of the metadata-production core of the NNTools repository
(`preprocessing/metadata.py`), shallowly embedded in Lean 4.

Modelling conventions:
* Floating-point values read from the event files are modelled as exact
  rationals (`ℚ`); non-finite floats, where they matter (the statistics
  calculator applies `np.nan_to_num`), are modelled by the tagged type
  `FVal` with `nan`, `pinf`, `ninf` and finite constructors.
* A structured-array row (`rec` in the Python code) is an association
  list from branch name to value; `getField` is `rec[branch]`.
  The branches actually read always exist in the record, so the
  default value of the lookup is never reached in the modelled claims.
* Python exceptions are modelled with `Except String`.

The Batteries rational-number operations are restored to their default
reducibility so that concrete instances of the definitions below can be
evaluated by `decide` (the kernel re-checks those evaluations in full).
-/

attribute [local semireducible] Rat.mul Rat.inv Rat.add Rat.sub Rat.ofScientific

set_option maxRecDepth 16384

set_option exponentiation.threshold 1024

/-- A row of the structured record array read by `root2array`:
branch name to value.  Only the label branches and the reweight
variable are ever accessed by `_prepare_reweight_info`. -/
def Row : Type := List (String × ℚ)

/-- Field access `row[branch]` on one row — field access on one row.  The branches used are
always present (they are explicitly requested from `root2array`), so
the `0` default is unreachable in the modelled code paths. -/
def getField (r : Row) (k : String) : ℚ :=
  (r.lookup k).getD 0

/-- Bin index of value `v` for the monotonically increasing bin edges
`edges`, following `np.histogram` semantics: bin `i` is the half-open
interval `[edges[i], edges[i+1])`, except the last bin which is the
closed interval `[edges[n-1], edges[n]]`; values outside
`[edges[0], edges[n]]` land in no bin. -/
def binOf : List ℚ → ℚ → Option Nat
  | [], _ => none
  | [_], _ => none
  | [e1, e2], v => if e1 ≤ v ∧ v ≤ e2 then some 0 else none
  | e1 :: e2 :: e3 :: rest, v =>
      if e1 ≤ v ∧ v < e2 then some 0
      else (binOf (e2 :: e3 :: rest) v).map (· + 1)

/-- Strictly increasing bin edges (adjacent pairs), the
precondition `np.histogram` enforces on an explicit edge sequence. -/
def edgesSorted : List ℚ → Bool
  | [] => true
  | [_] => true
  | e1 :: e2 :: rest => decide (e1 < e2) && edgesSorted (e2 :: rest)

/-- Increment entry `i` of a count list. -/
def bump : List ℕ → ℕ → List ℕ
  | [], _ => []
  | x :: xs, 0 => (x + 1) :: xs
  | x :: xs, i + 1 => x :: bump xs i

/-- Model of `np.histogram(a, bins=edges)[0]`: per-bin counts of the values of
`a` over the given bin edges (`range` is ignored by numpy when `bins`
is a sequence of edges). -/
def histogram (edges : List ℚ) : List ℚ → List ℕ
  | [] => List.replicate (edges.length - 1) 0
  | v :: a =>
      match binOf edges v with
      | some i => bump (histogram edges a) i
      | none => histogram edges a

/-- Minimum of a list of naturals (`min(...)` / `np.min(...)`); `none`
on the empty list, where Python would raise `ValueError`. -/
def listMin : List ℕ → Option ℕ
  | [] => none
  | x :: xs =>
      some (match listMin xs with
            | none => x
            | some m => Nat.min x m)

/-- The check `min(hist[-2:]) < 10` — the tail-bin check of
`_prepare_reweight_info`.  (The empty case cannot arise for two or
more bin edges.) -/
def tailTooSmall (h : List ℕ) : Bool :=
  match listMin (h.drop (h.length - 2)) with
  | some m => decide (m < 10)
  | none => false

/-- Model of `ref_val = np.min([x for x in hist if x > 0])`.  The default `0`
is unreachable once the tail-bin check has passed (the last bin is
then nonzero). -/
def refVal (h : List ℕ) : ℕ :=
  (listMin (h.filter (fun c => decide (0 < c)))).getD 0

/-- Per-label data produced by the first loop of
`_prepare_reweight_info`: raw histogram, per-bin weights, and the
reference count `ref_val` recorded in `class_events`. -/
structure LabelPre where
  raw_hist : List ℕ
  wts : List ℚ
  ref : ℕ
deriving DecidableEq, Repr

/-- One entry of the `result` dictionary of `_prepare_reweight_info`:
bin edges, raw histogram, final per-bin weight array (the mutated
`hist`), and the class weight added by the second loop. -/
structure LabelInfo where
  bin_edges : List ℚ
  raw_hist : List ℕ
  hist : List ℚ
  class_wgt : ℚ
deriving DecidableEq, Repr

/-- Model of `a = rec[self.reweight_var][rec[label] == 1]`: the reweight
variable over the rows where the one-hot label is asserted. -/
def selVals (rw label : String) (rec : List Row) : List ℚ :=
  (rec.filter (fun r => getField r label == 1)).map (fun r => getField r rw)

/-- Body of the first loop of `_prepare_reweight_info` for one label:
select the rows where the label is asserted, histogram the reweight
variable, raise if either of the last two bins has fewer than 10
events, otherwise replace each nonzero count `c` by `ref / c`
(zero counts stay 0). -/
def processLabel (bins : List ℚ) (rw : String) (rec : List Row) (label : String) :
    Except String LabelPre :=
  if tailTooSmall (histogram bins (selVals rw label rec)) then
    Except.error ("Not enough events for cateogry " ++ label)
  else
    Except.ok ⟨histogram bins (selVals rw label rec),
      (histogram bins (selVals rw label rec)).map
        (fun c => if c = 0 then 0
          else ((refVal (histogram bins (selVals rw label rec))) : ℚ) / (c : ℚ)),
      refVal (histogram bins (selVals rw label rec))⟩

/-- The first loop of `_prepare_reweight_info` over all labels; the
first failing label propagates its exception. -/
def processAll (bins : List ℚ) (rw : String) (rec : List Row) :
    List String → Except String (List (String × LabelPre))
  | [] => Except.ok []
  | label :: rest =>
      match processLabel bins rw rec label with
      | Except.error e => Except.error e
      | Except.ok x =>
          match processAll bins rw rec rest with
          | Except.error e => Except.error e
          | Except.ok xs => Except.ok ((label, x) :: xs)

/-- Model of `_prepare_reweight_info(rec)`: per-label reweight info.  The
second loop divides the global minimum reference count by each
label's reference count to obtain the class weight. -/
def prepareReweightInfo (labels : List String) (rw : String) (bins : List ℚ)
    (rec : List Row) : Except String (List (String × LabelInfo)) :=
  match processAll bins rw rec labels with
  | Except.error e => Except.error e
  | Except.ok pre =>
      let min_nevt := (listMin (pre.map (fun x => x.2.ref))).getD 0
      Except.ok (pre.map (fun x =>
        (x.1, ⟨bins, x.2.raw_hist, x.2.wts, (min_nevt : ℚ) / (x.2.ref : ℚ)⟩)))

/-- The metadata object state relevant to `_make_weights`: the
`reweight_info` attribute, unset (`none`) until the assignment
`self.reweight_info = self._prepare_reweight_info(rec)` runs. -/
structure MetaState where
  reweight_info : Option (List (String × LabelInfo))
deriving DecidableEq

/-- Model of `_make_weights`: run `_prepare_reweight_info` on the sampled
record array and assign the result to `self.reweight_info`.  The
returned pair is (exception status, object state after the call):
on an exception the assignment has not executed, so the state is
returned unchanged. -/
def make_weights (m : MetaState) (labels : List String) (rw : String)
    (bins : List ℚ) (rec : List Row) : Except String Unit × MetaState :=
  match prepareReweightInfo labels rw bins rec with
  | Except.error e => (Except.error e, m)
  | Except.ok ri => (Except.ok (), { m with reweight_info := some ri })

/-- A double-precision floating value as stored in the columns read
by `_make_infos`: NaN, the two infinities, or a finite value
(modelled exactly as a rational). -/
inductive FVal where
  | nan : FVal
  | pinf : FVal
  | ninf : FVal
  | fin : ℚ → FVal
deriving DecidableEq, Repr

/-- Largest finite float64, `np.finfo(np.float64).max`,
`(2^53 - 1) · 2^971`. -/
def FMAX : ℚ := (((2 ^ 53 - 1) * 2 ^ 971 : ℕ) : ℚ)

/-- Effect of `np.nan_to_num` on one float64 value: NaN becomes 0, positive
infinity becomes the largest finite float, negative infinity the
most negative finite float; finite values are unchanged. -/
def nanToNum : FVal → ℚ
  | FVal.nan => 0
  | FVal.pinf => FMAX
  | FVal.ninf => -FMAX
  | FVal.fin q => q

/-- Model of `np.min` over a nonempty list (`0` default for the empty list,
where numpy would raise). -/
def minQD : List ℚ → ℚ
  | [] => 0
  | x :: xs => xs.foldl min x

/-- Model of `np.max` over a nonempty list (`0` default for the empty list). -/
def maxQD : List ℚ → ℚ
  | [] => 0
  | x :: xs => xs.foldl max x

/-- Model of `np.mean`. -/
def meanQ (l : List ℚ) : ℚ := l.sum / (l.length : ℚ)

/-- The square of `np.std` (population variance, `ddof = 0`):
mean of the squared deviations from the mean.  `np.std` itself is its
square root, which is zero exactly when this is zero. -/
def varQ (l : List ℚ) : ℚ :=
  ((l.map (fun x => (x - meanQ l) ^ 2)).sum) / (l.length : ℚ)

/-- Insert into a sorted list of rationals. -/
def insertQ (x : ℚ) : List ℚ → List ℚ
  | [] => [x]
  | y :: ys => if x ≤ y then x :: y :: ys else y :: insertQ x ys

/-- Ascending sort of a list of rationals (`np.sort`). -/
def sortQ : List ℚ → List ℚ
  | [] => []
  | x :: xs => insertQ x (sortQ xs)

/-- Model of `np.percentile(l, p)` with numpy's default linear interpolation:
with `s` the ascending sort of `l` and `h = (n-1)·p/100`, the result
is `s[⌊h⌋] + (h - ⌊h⌋)·(s[⌈h⌉] - s[⌊h⌋])`.  `0` default on the empty
list, where numpy would raise. -/
def percentileQ (l : List ℚ) (p : ℚ) : ℚ :=
  let s := sortQ l
  let n := s.length
  if n = 0 then 0
  else
    let h : ℚ := ((n : ℚ) - 1) * p / 100
    let lo := h.floor.toNat
    let hi := h.ceil.toNat
    s.getD lo 0 + (h - (h.floor : ℚ)) * (s.getD hi 0 - s.getD lo 0)

/-- Python 2's builtin `round` to an integer: round to nearest, ties
away from zero (`round(2.5) = 3.0`).  This codebase is Python 2 only
(`json.dump(..., encoding='ascii')` in `writeMetadata` is a
Python-2-only API), so the Python 3 ties-to-even rule does not
apply. -/
def roundHalfAway (q : ℚ) : ℤ :=
  if 0 ≤ q then (q + 1 / 2).floor else -((-q + 1 / 2).floor)

/-- One entry of `branches_info`: the per-variable statistics record
written by `_make_infos` (`var` stands for the square of the stored
`std`). -/
structure VarStats where
  size : Option ℤ
  median : ℚ
  upper : ℚ
  min : ℚ
  max : ℚ
  mean : ℚ
  var : ℚ
deriving DecidableEq, Repr

/-- The scalar statistics block at the end of `_make_infos`. -/
def statsOf (size : Option ℤ) (a : List ℚ) : VarStats :=
  { size := size
    median := percentileQ a 50
    upper := percentileQ a 84
    min := minQD a
    max := maxQD a
    mean := meanQ a
    var := varQ a }

/-- A column of values of one variable over the sampled rows, with
the dtype dispatch of `_make_infos` made explicit: `flat` is a
numeric (fixed-shape) column, `ragged` an object-dtype column of
per-row variable-length vectors.  Non-finite values matter only on
the `ragged` path (where the code applies `np.nan_to_num`), so only
that path carries `FVal`s; the modelled claims do not touch
non-finite values in flat columns. -/
inductive Column where
  | flat : List ℚ → Column
  | ragged : List (List FVal) → Column

/-- Python truthiness of the configured `var_size`
(`if var_size:`): `None` and `0` are falsy. -/
def truthySize (o : Option ℕ) : Bool := o.getD 0 != 0

/-- The per-variable body of `_make_infos`: for an object-dtype
column, take the configured size if truthy, else
`int(round(np.percentile(lengths, 95)))` of the pre-flatten per-row
lengths; then flatten and apply `np.nan_to_num` before computing the
scalar statistics.  For a numeric column the size is `None` and the
values are used as read. -/
def makeInfo (varSize : Option ℕ) : Column → VarStats
  | Column.flat vals => statsOf none vals
  | Column.ragged rows =>
      let size : Option ℤ :=
        if truthySize varSize then some ((varSize.getD 0 : ℕ) : ℤ)
        else some (roundHalfAway (percentileQ (rows.map (fun r => (r.length : ℚ))) 95))
      statsOf size ((rows.flatten).map nanToNum)

/-- Substring test, `pat in s` on Python strings. -/
def strContains (s pat : String) : Bool :=
  s.data.tails.any (fun t => pat.data.isPrefixOf t)

/-- Model of `os.path.join` for one directory and one file name. -/
def pathJoin (dp f : String) : String := dp ++ "/" ++ f

/-- The test `f.endswith('.root')`. -/
def isRootFile (f : String) : Bool := ".root".data.isSuffixOf f.data

/-- Model of `updateFilelist`: walk the directory tree (given as the ordered
`os.walk` output: directory path and its file names), skip
directories whose path contains `failed` or `ignore`, apply the
`test_sample` path filter, keep `.root` files whose event count (from
the external `get_num_events` collaborator) is truthy, and append
path and count to two parallel lists. -/
def updateFilelist (walk : List (String × List String)) (getNum : String → ℕ)
    (test_sample : Bool) : List String × List ℕ :=
  walk.foldl (fun acc d =>
    if strContains d.1 "failed" || strContains d.1 "ignore" then acc
    else if !test_sample && strContains d.1 "test_sample" then acc
    else if test_sample && !strContains d.1 "test_sample" then acc
    else d.2.foldl (fun acc2 f =>
      if !isRootFile f then acc2
      else
        let nevts := getNum (pathJoin d.1 f)
        if nevts ≠ 0 then (acc2.1 ++ [pathJoin d.1 f], acc2.2 ++ [nevts])
        else acc2) acc)
    ([], [])

/-- Model of `self._total_events = sum(self.num_events)`. -/
def totalEvents (walk : List (String × List String)) (getNum : String → ℕ)
    (test_sample : Bool) : ℕ :=
  (updateFilelist walk getNum test_sample).2.sum

/-- Does field name `k` match some pattern of the group?  (`re.match`
is abstracted as a Boolean matcher on field names; its semantics are
irrelevant to the claims.)  A group is (name, patterns, size). -/
def groupMatches (g : String × List (String → Bool) × Option ℕ) (k : String) : Bool :=
  g.2.1.any (fun rx => rx k)

/-- Model of `_make_varlist`: select every available branch matched by some
group (the first matching group supplies its declared size; each
branch is appended at most once), then remove every blacklist and
label entry with `list.remove` (first occurrence; a missing entry's
`ValueError` is swallowed, which `List.erase` models exactly).
Returns the final branch list and the size lookup. -/
def make_varlist (all_branches : List String)
    (var_groups : List (String × List (String → Bool) × Option ℕ))
    (blacklist labels : List String) : List String × List (String × Option ℕ) :=
  let selected := all_branches.filter (fun k => var_groups.any (fun g => groupMatches g k))
  let sizes := selected.map (fun k =>
    (k, ((var_groups.find? (fun g => groupMatches g k)).map (fun g => g.2.2)).getD none))
  let final := (blacklist ++ labels).foldl (fun acc v => acc.erase v) selected
  (final, sizes)

mutual
/-- A Python value as can occur among the attributes of the
`Metadata` object that `writeMetadata` serializes (`json.dump` of
`self.__dict__`): `None`, booleans, ints, (finite) floats, strings,
lists, tuples and string-keyed dicts. -/
inductive PyVal where
  | pynone : PyVal
  | pybool : Bool → PyVal
  | pyint : ℤ → PyVal
  | pyfloat : ℚ → PyVal
  | pystr : String → PyVal
  | pylist : PyList → PyVal
  | pytuple : PyList → PyVal
  | pydict : PyDict → PyVal
deriving DecidableEq
/-- A Python list/tuple body. -/
inductive PyList where
  | nil : PyList
  | cons : PyVal → PyList → PyList
deriving DecidableEq
/-- A Python dict body, in iteration order. -/
inductive PyDict where
  | dnil : PyDict
  | dcons : String → PyVal → PyDict → PyDict
deriving DecidableEq
end

mutual
/-- A JSON value as written by `json.dump`: JSON has no tuples, and
object keys appear in the serialized order. -/
inductive JVal where
  | jnull : JVal
  | jbool : Bool → JVal
  | jint : ℤ → JVal
  | jfloat : ℚ → JVal
  | jstr : String → JVal
  | jarr : JList → JVal
  | jobj : JDict → JVal
deriving DecidableEq
/-- A JSON array body. -/
inductive JList where
  | nil : JList
  | cons : JVal → JList → JList
deriving DecidableEq
/-- A JSON object body. -/
inductive JDict where
  | dnil : JDict
  | dcons : String → JVal → JDict → JDict
deriving DecidableEq
end

/-- Lexicographic strict order on character lists (by code point) —
the order `sorted` / `sort_keys=True` uses on string keys. -/
def charsLt : List Char → List Char → Bool
  | [], [] => false
  | [], _ :: _ => true
  | _ :: _, [] => false
  | c1 :: t1, c2 :: t2 =>
      if c1.toNat < c2.toNat then true
      else if c2.toNat < c1.toNat then false
      else charsLt t1 t2

/-- Strict lexicographic order on strings. -/
def strLtB (a b : String) : Bool := charsLt a.data b.data

/-- Lexicographic `≤` on strings (`¬ b < a`). -/
def strLeB (a b : String) : Bool := !(strLtB b a)

/-- Insert one key/value pair into a key-sorted JSON object body. -/
def dinsert (k : String) (v : JVal) : JDict → JDict
  | JDict.dnil => JDict.dcons k v JDict.dnil
  | JDict.dcons k1 v1 rest =>
      if strLeB k k1 then JDict.dcons k v (JDict.dcons k1 v1 rest)
      else JDict.dcons k1 v1 (dinsert k v rest)

/-- Sort a JSON object body by key (`sort_keys=True`). -/
def sortD : JDict → JDict
  | JDict.dnil => JDict.dnil
  | JDict.dcons k v rest => dinsert k v (sortD rest)

mutual
/-- Model of `json.dump(..., sort_keys=True)`: serialize a Python value to a
JSON value.  Tuples are written as JSON arrays; every object's keys
are emitted in sorted order. -/
def pySer : PyVal → JVal
  | PyVal.pynone => JVal.jnull
  | PyVal.pybool b => JVal.jbool b
  | PyVal.pyint n => JVal.jint n
  | PyVal.pyfloat q => JVal.jfloat q
  | PyVal.pystr s => JVal.jstr s
  | PyVal.pylist xs => JVal.jarr (pyLSer xs)
  | PyVal.pytuple xs => JVal.jarr (pyLSer xs)
  | PyVal.pydict kvs => JVal.jobj (sortD (pyDSer kvs))
/-- Serialize a list/tuple body. -/
def pyLSer : PyList → JList
  | PyList.nil => JList.nil
  | PyList.cons v vs => JList.cons (pySer v) (pyLSer vs)
/-- Serialize a dict body (keys sorted afterwards by `sortD`). -/
def pyDSer : PyDict → JDict
  | PyDict.dnil => JDict.dnil
  | PyDict.dcons k v kvs => JDict.dcons k (pySer v) (pyDSer kvs)
end

mutual
/-- Model of `json.load`: parse a JSON value back into a Python value.  JSON
arrays always load as Python lists. -/
def jLoad : JVal → PyVal
  | JVal.jnull => PyVal.pynone
  | JVal.jbool b => PyVal.pybool b
  | JVal.jint n => PyVal.pyint n
  | JVal.jfloat q => PyVal.pyfloat q
  | JVal.jstr s => PyVal.pystr s
  | JVal.jarr xs => PyVal.pylist (jLLoad xs)
  | JVal.jobj kvs => PyVal.pydict (jDLoad kvs)
/-- Load a JSON array body. -/
def jLLoad : JList → PyList
  | JList.nil => PyList.nil
  | JList.cons v vs => PyList.cons (jLoad v) (jLLoad vs)
/-- Load a JSON object body. -/
def jDLoad : JDict → PyDict
  | JDict.dnil => PyDict.dnil
  | JDict.dcons k v kvs => PyDict.dcons k (jLoad v) (jDLoad kvs)
end

/-- The test `k.startswith('_')` — the private-field naming convention. -/
def isPrivate (s : String) : Bool :=
  match s.data with
  | '_' :: _ => true
  | _ => false

/-- The fields `loadMetadata` skips: drop every private-keyed entry. -/
def dropPrivate : PyDict → PyDict
  | PyDict.dnil => PyDict.dnil
  | PyDict.dcons k v kvs =>
      if isPrivate k then dropPrivate kvs
      else PyDict.dcons k v (dropPrivate kvs)

/-- First-occurrence lookup in a dict body (attribute read on the
resulting object). -/
def lookupD (k : String) : PyDict → Option PyVal
  | PyDict.dnil => none
  | PyDict.dcons k1 v kvs => if k = k1 then some v else lookupD k kvs

/-- Model of `writeMetadata`: serialize the object's attribute dict
(`self.__dict__`, private fields included) with sorted keys. -/
def writeMeta (d : PyDict) : JVal := pySer (PyVal.pydict d)

/-- Model of `loadMetadata`: parse the document and return the attribute
assignments it performs — every non-private key of the document, with
its loaded value. -/
def loadMeta (j : JVal) : PyDict :=
  match jLoad j with
  | PyVal.pydict kvs => dropPrivate kvs
  | _ => PyDict.dnil

/-- Keys of a dict body strictly ascending (adjacent pairs). -/
def dKeysSorted : JDict → Bool
  | JDict.dnil => true
  | JDict.dcons _ _ JDict.dnil => true
  | JDict.dcons k _ (JDict.dcons k1 v1 rest) =>
      strLtB k k1 && dKeysSorted (JDict.dcons k1 v1 rest)

/-- Keys of a dict body weakly ascending (adjacent pairs). -/
def dKeysSortedLe : JDict → Bool
  | JDict.dnil => true
  | JDict.dcons _ _ JDict.dnil => true
  | JDict.dcons k _ (JDict.dcons k1 v1 rest) =>
      strLeB k k1 && dKeysSortedLe (JDict.dcons k1 v1 rest)

/-- Key `k` is at most the first key of the object body (or the body is
empty) — the head condition of insertion sort. -/
def dHeadLe (k : String) : JDict → Bool
  | JDict.dnil => true
  | JDict.dcons k2 _ _ => strLeB k k2

mutual
/-- Every object contained in the JSON value has its keys sorted. -/
def jAllSorted : JVal → Bool
  | JVal.jarr xs => jLAllSorted xs
  | JVal.jobj kvs => dKeysSortedLe kvs && jDAllSorted kvs
  | _ => true
/-- Predicate `jAllSorted` over an array body. -/
def jLAllSorted : JList → Bool
  | JList.nil => true
  | JList.cons v vs => jAllSorted v && jLAllSorted vs
/-- Predicate `jAllSorted` over the values of an object body. -/
def jDAllSorted : JDict → Bool
  | JDict.dnil => true
  | JDict.dcons _ v kvs => jAllSorted v && jDAllSorted kvs
end

mutual
/-- The values for which the JSON round trip is literal: no tuples
anywhere, and every dict already in strictly sorted key order (a
Python dict has distinct keys, and key order within a dict is
irrelevant to Python dict equality, so this loses no generality for
the descriptor). -/
def pyGood : PyVal → Bool
  | PyVal.pytuple _ => false
  | PyVal.pylist xs => pyLGood xs
  | PyVal.pydict kvs => pyDKeysSorted kvs && pyDGood kvs
  | _ => true
/-- Predicate `pyGood` over a list body. -/
def pyLGood : PyList → Bool
  | PyList.nil => true
  | PyList.cons v vs => pyGood v && pyLGood vs
/-- Predicate `pyGood` over the values of a dict body. -/
def pyDGood : PyDict → Bool
  | PyDict.dnil => true
  | PyDict.dcons _ v kvs => pyGood v && pyDGood kvs
/-- Keys of a Python dict body strictly ascending. -/
def pyDKeysSorted : PyDict → Bool
  | PyDict.dnil => true
  | PyDict.dcons _ _ PyDict.dnil => true
  | PyDict.dcons k _ (PyDict.dcons k1 v1 rest) =>
      strLtB k k1 && pyDKeysSorted (PyDict.dcons k1 v1 rest)
end

/-- A one-hot row of the sampled record with label `A` set and the
given reweight-variable value. -/
def rowA (v : ℚ) : Row := [("A", 1), ("pt", v)]

/-- A one-hot row with label `B` set (label `A` reads as 0 via the
lookup default, as a field absent from the one-hot indicator). -/
def rowB (v : ℚ) : Row := [("B", 1), ("pt", v)]

/-- Sampled rows whose histogram over bins `[0,1,2,3,4]` has counts
`[50, 100, 0, 20]` — the example histogram of the spec. -/
def recC1 : List Row :=
  List.replicate 50 (rowA 0) ++ List.replicate 100 (rowA 1) ++ List.replicate 20 (rowA 3)

/-- Sampled rows whose histogram over bins `[0,1,2,3,4]` has counts
`[50, 0, 100, 20]` — like the spec example but with the zero count
away from the last two bins, so the tail-bin check passes. -/
def recC1w : List Row :=
  List.replicate 50 (rowA 0) ++ List.replicate 100 (rowA 2) ++ List.replicate 20 (rowA 3)

/-- Sampled rows giving label `A` histogram `[20, 30]` (reference
count 20) and label `B` histogram `[50, 50]` (reference count 50)
over bins `[0,1,2]`. -/
def recC2 : List Row :=
  List.replicate 20 (rowA 0) ++ List.replicate 30 (rowA 1) ++
    List.replicate 50 (rowB 0) ++ List.replicate 50 (rowB 1)

/-- Sampled rows whose histogram over bins `[0,1,2,3,4]` has counts
`[100, 100, 5, 3]` — the tail-check example of the spec. -/
def recC3 : List Row :=
  List.replicate 100 (rowA 0) ++ List.replicate 100 (rowA 1) ++
    List.replicate 5 (rowA 2) ++ List.replicate 3 (rowA 3)

/-- Sampled rows over bins `[0,1,2]`: twenty in-range values and one
value `-1` below the lowest bin edge. -/
def recC4 : List Row :=
  List.replicate 10 (rowA 0) ++ List.replicate 10 (rowA 1) ++ [rowA (-1)]

/-- A single sampled row: its histogram `[1, 0]` over bins `[0,1,2]`
fails the tail-bin check. -/
def recC10 : List Row := [rowA 0]

deriving instance DecidableEq for Except

/-- The reweight info computed on `recC1w`: histogram `[50,0,100,20]`,
reference count 20, weights `[0.4, 0, 0.2, 1.0]`, class weight 1. -/
def c1wInfo : LabelInfo :=
  ⟨[0, 1, 2, 3, 4], [50, 0, 100, 20], [2/5, 0, 1/5, 1], 1⟩

/-- The full result of `_prepare_reweight_info` on `recC1w`. -/
def resC1w : List (String × LabelInfo) := [("A", c1wInfo)]

/-- The full result of `_prepare_reweight_info` on `recC2`: label `A`
has reference count 20 and class weight 1, label `B` reference count
50 and class weight 0.4. -/
def resC2 : List (String × LabelInfo) :=
  [("A", ⟨[0, 1, 2], [20, 30], [1, 2/3], 1⟩),
   ("B", ⟨[0, 1, 2], [50, 50], [1, 1], 2/5⟩)]

/-- Eleven sampled ragged rows with per-row lengths
`[1,1,1,1,1,1,1,1,2,2,3]`: their 95th length percentile is exactly
2.5, an exact rounding tie. -/
def rowsTie : List (List FVal) :=
  [List.replicate 1 (FVal.fin 0), List.replicate 1 (FVal.fin 0),
   List.replicate 1 (FVal.fin 0), List.replicate 1 (FVal.fin 0),
   List.replicate 1 (FVal.fin 0), List.replicate 1 (FVal.fin 0),
   List.replicate 1 (FVal.fin 0), List.replicate 1 (FVal.fin 0),
   List.replicate 2 (FVal.fin 0), List.replicate 2 (FVal.fin 0),
   List.replicate 3 (FVal.fin 0)]

/-- Ten sampled ragged rows with per-row lengths
`[1,2,2,3,3,3,3,3,3,10]` (the spec's size-inference example). -/
def rowsC6 : List (List FVal) :=
  [List.replicate 1 (FVal.fin 0), List.replicate 2 (FVal.fin 0),
   List.replicate 2 (FVal.fin 0), List.replicate 3 (FVal.fin 0),
   List.replicate 3 (FVal.fin 0), List.replicate 3 (FVal.fin 0),
   List.replicate 3 (FVal.fin 0), List.replicate 3 (FVal.fin 0),
   List.replicate 3 (FVal.fin 0), List.replicate 10 (FVal.fin 0)]

/-- A small attribute dict: one private field and one public field,
keys already in sorted order. -/
def dW : PyDict :=
  PyDict.dcons "_inputdir" (PyVal.pystr "/data") (PyDict.dcons "treename"
    (PyVal.pystr "deepntuplizer/tree") PyDict.dnil)

/-- An attribute dict with a tuple-valued public field, as
`var_groups` has in the documented configuration. -/
def dT : PyDict :=
  PyDict.dcons "var_groups" (PyVal.pytuple PyList.nil) PyDict.dnil

theorem listMin_isSome {l : List ℕ} (h : l ≠ []) : (listMin l).isSome = true := by
  cases l with
  | nil => exact absurd rfl h
  | cons x xs => simp [listMin]

theorem listMin_none {l : List ℕ} (h : listMin l = none) : l = [] := by
  cases l with
  | nil => rfl
  | cons x xs => simp [listMin] at h

theorem listMin_mem : ∀ {l : List ℕ} {m : ℕ}, listMin l = some m → m ∈ l := by
  intro l
  induction l with
  | nil => intro m h; simp [listMin] at h
  | cons x xs ih =>
      intro m h
      simp only [listMin, Option.some.injEq] at h
      cases hxs : listMin xs with
      | none => rw [hxs] at h; subst h; exact List.mem_cons_self x xs
      | some k =>
          rw [hxs] at h
          have h' : min x k = m := h
          rw [min_def] at h'
          by_cases hle : x ≤ k
          · simp only [hle, if_true] at h'; subst h'; exact List.mem_cons_self x xs
          · simp only [hle, if_false] at h'; subst h'
            exact List.mem_cons_of_mem x (ih hxs)

theorem listMin_le : ∀ {l : List ℕ} {m : ℕ}, listMin l = some m → ∀ x ∈ l, m ≤ x := by
  intro l
  induction l with
  | nil => intro m h; simp [listMin] at h
  | cons x xs ih =>
      intro m h y hy
      simp only [listMin, Option.some.injEq] at h
      cases hxs : listMin xs with
      | none =>
          rw [hxs] at h
          subst h
          have hnil := listMin_none hxs
          subst hnil
          rcases List.mem_cons.mp hy with h1 | h1
          · exact le_of_eq h1.symm
          · simp at h1
      | some k =>
          rw [hxs] at h
          have h' : min x k = m := h
          subst h'
          rcases List.mem_cons.mp hy with h1 | h1
          · exact h1 ▸ min_le_left x k
          · exact le_trans (min_le_right x k) (ih hxs y h1)

theorem bump_length : ∀ (h : List ℕ) (i : ℕ), (bump h i).length = h.length
  | [], _ => rfl
  | _ :: _, 0 => rfl
  | _ :: xs, i + 1 => by simp [bump, bump_length xs i]

theorem bump_sum : ∀ (h : List ℕ) (i : ℕ), i < h.length → (bump h i).sum = h.sum + 1
  | [], i, hi => by simp at hi
  | x :: xs, 0, _ => by simp [bump, List.sum_cons]; omega
  | x :: xs, i + 1, hi => by
      have hi' : i < xs.length := by simpa using hi
      simp [bump, List.sum_cons, bump_sum xs i hi']
      omega

theorem histogram_length (edges : List ℚ) :
    ∀ a : List ℚ, (histogram edges a).length = edges.length - 1
  | [] => by simp [histogram]
  | v :: a => by
      simp only [histogram]
      cases hb : binOf edges v with
      | none => exact histogram_length edges a
      | some i => rw [bump_length]; exact histogram_length edges a

theorem binOf_lt : ∀ (edges : List ℚ) (v : ℚ) (i : ℕ),
    binOf edges v = some i → i < edges.length - 1
  | [], v, i => by simp [binOf]
  | [_], v, i => by simp [binOf]
  | [e1, e2], v, i => by
      simp only [binOf]
      split
      · intro h
        cases h
        simp
      · intro h
        cases h
  | e1 :: e2 :: e3 :: rest, v, i => by
      simp only [binOf]
      split
      · intro h
        cases h
        simp
      · intro h
        rcases Option.map_eq_some'.mp h with ⟨j, hj, rfl⟩
        have := binOf_lt (e2 :: e3 :: rest) v j hj
        simp at this ⊢
        omega

theorem edgesSorted_head_le_last : ∀ (e : ℚ) (rest : List ℚ),
    edgesSorted (e :: rest) = true → e ≤ (e :: rest).getLastD 0
  | e, [], _ => le_refl e
  | e, f :: rest, h => by
      simp only [edgesSorted, Bool.and_eq_true, decide_eq_true_eq] at h
      have h2 := edgesSorted_head_le_last f rest h.2
      have hl : (e :: f :: rest).getLastD 0 = (f :: rest).getLastD 0 := by
        simp [List.getLastD_cons]
      rw [hl]
      exact le_trans (le_of_lt h.1) h2

theorem binOf_isSome_iff : ∀ (edges : List ℚ) (v : ℚ),
    2 ≤ edges.length → edgesSorted edges = true →
    ((binOf edges v).isSome = true ↔
      (edges.headD 0 ≤ v ∧ v ≤ edges.getLastD 0))
  | [], v, hlen, _ => by simp at hlen
  | [_], v, hlen, _ => by simp at hlen
  | [e1, e2], v, _, _ => by
      simp only [binOf, List.headD_cons]
      constructor
      · intro h
        by_cases hc : e1 ≤ v ∧ v ≤ e2
        · simpa [List.getLastD_cons] using hc
        · rw [if_neg hc] at h; simp at h
      · intro h
        rw [if_pos]
        · simp
        · simpa [List.getLastD_cons] using h
  | e1 :: e2 :: e3 :: rest, v, _, hsort0 => by
      have hsort : e1 < e2 ∧ edgesSorted (e2 :: e3 :: rest) = true := by
        rw [show edgesSorted (e1 :: e2 :: e3 :: rest) =
              (decide (e1 < e2) && edgesSorted (e2 :: e3 :: rest)) from rfl,
            Bool.and_eq_true, decide_eq_true_eq] at hsort0
        exact hsort0
      have ih := binOf_isSome_iff (e2 :: e3 :: rest) v (by simp) hsort.2
      have hlast : (e1 :: e2 :: e3 :: rest).getLastD 0 = (e2 :: e3 :: rest).getLastD 0 := by
        simp [List.getLastD_cons]
      have he2last : e2 ≤ (e2 :: e3 :: rest).getLastD 0 :=
        edgesSorted_head_le_last e2 (e3 :: rest) hsort.2
      simp only [binOf, List.headD_cons] at ih ⊢
      rw [hlast]
      constructor
      · intro h
        by_cases hc : e1 ≤ v ∧ v < e2
        · exact ⟨hc.1, le_trans (le_of_lt hc.2) he2last⟩
        · rw [if_neg hc] at h
          rw [Option.isSome_map'] at h
          have := ih.mp h
          exact ⟨le_trans (le_of_lt hsort.1) this.1, this.2⟩
      · intro h
        by_cases hc : v < e2
        · rw [if_pos ⟨h.1, hc⟩]; simp
        · rw [if_neg (by intro hx; exact hc hx.2)]
          rw [Option.isSome_map']
          exact ih.mpr ⟨le_of_not_lt hc, h.2⟩

theorem histogram_sum (edges : List ℚ) :
    ∀ a : List ℚ, (histogram edges a).sum =
      a.countP (fun v => (binOf edges v).isSome)
  | [] => by simp [histogram]
  | v :: a => by
      simp only [histogram, List.countP_cons]
      cases hb : binOf edges v with
      | none => simp [hb, histogram_sum edges a]
      | some i =>
          have hlt : i < (histogram edges a).length := by
            rw [histogram_length]
            exact binOf_lt edges v i hb
          rw [bump_sum _ i hlt, histogram_sum edges a]
          simp [hb]

/-- C4 (amended): when `_prepare_reweight_info` histograms the
reweight variable over the configured bin edges, values outside
`[min bin edge, max bin edge]` are ignored, not clipped (the `range`
argument has no effect when explicit bin edges are given): the sum of
the raw histogram counts equals the number of selected rows whose
value lies within the closed interval between the first and last bin
edge. -/
theorem histogram_sum_in_range_only (edges a : List ℚ)
    (hlen : 2 ≤ edges.length) (hsort : edgesSorted edges = true) :
    (histogram edges a).sum =
      a.countP (fun v => decide (edges.headD 0 ≤ v ∧ v ≤ edges.getLastD 0)) := by
  rw [histogram_sum]
  apply List.countP_congr
  intro v _
  rw [binOf_isSome_iff edges v hlen hsort, decide_eq_true_eq]

/-- Witness for `histogram_sum_in_range_only` at edges `[0,1,2]` and
values `[-1, 0, 1, 5]` (two of which are in range). -/
theorem histogram_sum_in_range_only_witness :
    2 ≤ ([0, 1, 2] : List ℚ).length ∧ edgesSorted ([0, 1, 2] : List ℚ) = true ∧
    (histogram [0, 1, 2] [-1, 0, 1, 5]).sum =
      ([(-1 : ℚ), 0, 1, 5].countP
        (fun v => decide (([0, 1, 2] : List ℚ).headD 0 ≤ v ∧
          v ≤ ([0, 1, 2] : List ℚ).getLastD 0))) :=
  ⟨by decide, by decide,
    histogram_sum_in_range_only [0, 1, 2] [-1, 0, 1, 5] (by decide) (by decide)⟩

/-- Counterexample to C4 as stated: on `recC4` (21 selected rows, one
of them with value `-1` below the lowest bin edge) the raw histogram
produced by the reweighting calculator sums to 20, not to the number
of selected rows — the out-of-range value is dropped, not clipped
into the first bin. -/
theorem histogram_drops_out_of_range :
    (prepareReweightInfo ["A"] "pt" [0, 1, 2] recC4).toOption.map
        (fun res => res.map (fun e => e.2.raw_hist.sum)) = some [20]
    ∧ (recC4.filter (fun r => getField r "A" == 1)).length = 21
    ∧ (20 : ℕ) ≠ 21 :=
  ⟨by decide, by decide, by decide⟩

theorem processLabel_ok {bins : List ℚ} {rw : String} {rec : List Row} {label : String}
    {x : LabelPre} (h : processLabel bins rw rec label = Except.ok x) :
    tailTooSmall (histogram bins (selVals rw label rec)) = false ∧
    x.raw_hist = histogram bins (selVals rw label rec) ∧
    x.ref = refVal x.raw_hist ∧
    x.wts = x.raw_hist.map (fun c => if c = 0 then 0 else (x.ref : ℚ) / (c : ℚ)) := by
  unfold processLabel at h
  split at h
  · exact absurd h (by simp)
  · next htail =>
      rw [Except.ok.injEq] at h
      subst h
      exact ⟨Bool.not_eq_true _ ▸ htail, rfl, rfl, rfl⟩

theorem processLabel_error_iff (bins : List ℚ) (rw : String) (rec : List Row)
    (label : String) :
    (processLabel bins rw rec label).toOption = none ↔
    tailTooSmall (histogram bins (selVals rw label rec)) = true := by
  unfold processLabel
  split
  · next htail => simp [htail, Except.toOption]
  · next htail => simp [Except.toOption]; simpa using htail

theorem processAll_ok_mem {bins : List ℚ} {rw : String} {rec : List Row} :
    ∀ {labels : List String} {pre : List (String × LabelPre)},
    processAll bins rw rec labels = Except.ok pre →
    ∀ p ∈ pre, processLabel bins rw rec p.1 = Except.ok p.2 := by
  intro labels
  induction labels with
  | nil =>
      intro pre h p hp
      simp only [processAll, Except.ok.injEq] at h
      subst h
      simp at hp
  | cons label rest ih =>
      intro pre h p hp
      simp only [processAll] at h
      cases hl : processLabel bins rw rec label with
      | error e => rw [hl] at h; exact absurd h (by simp)
      | ok x =>
          rw [hl] at h
          cases hr : processAll bins rw rec rest with
          | error e => rw [hr] at h; exact absurd h (by simp)
          | ok xs =>
              rw [hr] at h
              rw [Except.ok.injEq] at h
              subst h
              rcases List.mem_cons.mp hp with h1 | h1
              · subst h1; exact hl
              · exact ih hr p h1

theorem processAll_error_iff (bins : List ℚ) (rw : String) (rec : List Row) :
    ∀ labels : List String,
    ((processAll bins rw rec labels).toOption = none ↔
      ∃ label ∈ labels, tailTooSmall (histogram bins (selVals rw label rec)) = true)
  | [] => by simp [processAll, Except.toOption]
  | label :: rest => by
      simp only [processAll]
      cases hl : processLabel bins rw rec label with
      | error e =>
          have h1 : tailTooSmall (histogram bins (selVals rw label rec)) = true :=
            (processLabel_error_iff bins rw rec label).mp (by rw [hl]; rfl)
          simp [Except.toOption]
          exact Or.inl h1
      | ok x =>
          have h1 : ¬ tailTooSmall (histogram bins (selVals rw label rec)) = true := by
            intro hc
            have := (processLabel_error_iff bins rw rec label).mpr hc
            rw [hl] at this
            simp [Except.toOption] at this
          cases hr : processAll bins rw rec rest with
          | error e =>
              have h2 := (processAll_error_iff bins rw rec rest).mp (by rw [hr]; rfl)
              rcases h2 with ⟨l2, hl2, ht2⟩
              simp [Except.toOption]
              exact Or.inr ⟨l2, hl2, ht2⟩
          | ok xs =>
              have h2 := (processAll_error_iff bins rw rec rest)
              rw [hr] at h2
              simp [Except.toOption] at h2 ⊢
              exact ⟨by simpa using h1, h2⟩

theorem prepare_error_iff (labels : List String) (rw : String) (bins : List ℚ)
    (rec : List Row) :
    ((prepareReweightInfo labels rw bins rec).toOption = none ↔
      ∃ label ∈ labels, tailTooSmall (histogram bins (selVals rw label rec)) = true) := by
  unfold prepareReweightInfo
  cases hall : processAll bins rw rec labels with
  | error e =>
      have := (processAll_error_iff bins rw rec labels)
      rw [hall] at this
      simp [Except.toOption] at this ⊢
      exact this
  | ok pre =>
      have := (processAll_error_iff bins rw rec labels)
      rw [hall] at this
      simp [Except.toOption] at this ⊢
      exact this

theorem tailTooSmall_iff (h : List ℕ) :
    tailTooSmall h = true ↔ ∃ c ∈ h.drop (h.length - 2), c < 10 := by
  unfold tailTooSmall
  cases hm : listMin (h.drop (h.length - 2)) with
  | none =>
      have hnil := listMin_none hm
      simp [hnil]
  | some m =>
      simp only [decide_eq_true_eq]
      constructor
      · intro hlt
        exact ⟨m, listMin_mem hm, hlt⟩
      · rintro ⟨c, hc, hlt⟩
        have := listMin_le hm c hc
        omega

theorem tailTooSmall_false_min {h : List ℕ} (hne : h ≠ [])
    (ht : tailTooSmall h = false) :
    ∃ m, listMin (h.drop (h.length - 2)) = some m ∧ 10 ≤ m := by
  unfold tailTooSmall at ht
  cases hm : listMin (h.drop (h.length - 2)) with
  | none =>
      exfalso
      have hnil := listMin_none hm
      have hlen : 0 < h.length := List.length_pos.mpr hne
      have := List.drop_eq_nil_iff.mp hnil
      omega
  | some m =>
      rw [hm] at ht
      simp at ht
      exact ⟨m, rfl, ht⟩

theorem refVal_spec {h : List ℕ} (hne : h ≠ []) (ht : tailTooSmall h = false) :
    refVal h ∈ h ∧ 0 < refVal h ∧ ∀ c ∈ h, c ≠ 0 → refVal h ≤ c := by
  obtain ⟨m, hm, h10⟩ := tailTooSmall_false_min hne ht
  have hmemh : m ∈ h := List.mem_of_mem_drop (listMin_mem hm)
  have hmf : m ∈ h.filter (fun c => decide (0 < c)) :=
    List.mem_filter.mpr ⟨hmemh, by simp; omega⟩
  cases hr : listMin (h.filter (fun c => decide (0 < c))) with
  | none =>
      exfalso
      have hnil := listMin_none hr
      rw [hnil] at hmf
      simp at hmf
  | some r =>
      have hrv : refVal h = r := by unfold refVal; rw [hr]; rfl
      have hrmem := listMin_mem hr
      have hrh : r ∈ h := (List.mem_filter.mp hrmem).1
      have hrpos : 0 < r := by
        have := (List.mem_filter.mp hrmem).2
        simpa using this
      refine ⟨hrv ▸ hrh, hrv ▸ hrpos, ?_⟩
      intro c hc hc0
      have hcf : c ∈ h.filter (fun c => decide (0 < c)) :=
        List.mem_filter.mpr ⟨hc, by simp; omega⟩
      rw [hrv]
      exact listMin_le hr c hcf

theorem histogram_ne_nil {bins : List ℚ} (hb : 2 ≤ bins.length) (a : List ℚ) :
    histogram bins a ≠ [] := by
  have hl := histogram_length bins a
  intro hq
  rw [hq] at hl
  simp at hl
  omega

/-- C1 (amended): for every label of a successful run of the
reweighting calculator there is a reference count `ref` — the
minimum over the nonzero bin counts of that label's raw histogram —
such that the per-bin weight array equals `ref / count` at every
nonzero count and `0` at every zero count.  The spec's example
histogram `[50, 100, 0, 20]` however does not pass the tail-bin check
(its second-to-last bin is 0 < 10), so on it the calculator raises
instead of producing `[0.4, 0.2, 0, 1.0]`; a histogram such as
`[50, 0, 100, 20]` yields the weights `[0.4, 0, 0.2, 1.0]`. -/
theorem reweight_bin_weights (labels : List String) (rw : String) (bins : List ℚ)
    (rec : List Row) (res : List (String × LabelInfo))
    (hb : 2 ≤ bins.length)
    (hok : prepareReweightInfo labels rw bins rec = Except.ok res) :
    ∀ e ∈ res, ∃ ref : ℕ,
      (ref ∈ e.2.raw_hist ∧ 0 < ref ∧ ∀ c ∈ e.2.raw_hist, c ≠ 0 → ref ≤ c) ∧
      e.2.hist = e.2.raw_hist.map
        (fun c => if c = 0 then 0 else (ref : ℚ) / (c : ℚ)) := by
  unfold prepareReweightInfo at hok
  cases hall : processAll bins rw rec labels with
  | error e => rw [hall] at hok; exact absurd hok (by simp)
  | ok pre =>
      rw [hall] at hok
      simp only [Except.ok.injEq] at hok
      subst hok
      intro e he
      rcases List.mem_map.mp he with ⟨x, hx, rfl⟩
      obtain ⟨htail, hraw, href, hwts⟩ := processLabel_ok (processAll_ok_mem hall x hx)
      have hnil := histogram_ne_nil hb (selVals rw x.1 rec)
      have hspec := refVal_spec hnil htail
      refine ⟨x.2.ref, ⟨?_, ?_, ?_⟩, ?_⟩
      · show x.2.ref ∈ x.2.raw_hist
        rw [href, hraw]
        exact hspec.1
      · show 0 < x.2.ref
        rw [href, hraw]
        exact hspec.2.1
      · show ∀ c ∈ x.2.raw_hist, c ≠ 0 → x.2.ref ≤ c
        intro c hc hc0
        rw [href, hraw]
        rw [hraw] at hc
        exact hspec.2.2 c hc hc0
      · exact hwts

/-- Witness for `reweight_bin_weights` on the concrete rows `recC1w`
(histogram `[50, 0, 100, 20]`, weights `[0.4, 0, 0.2, 1.0]`). -/
theorem reweight_bin_weights_witness :
    prepareReweightInfo ["A"] "pt" [0, 1, 2, 3, 4] recC1w = Except.ok resC1w ∧
    ∃ ref : ℕ,
      (ref ∈ c1wInfo.raw_hist ∧ 0 < ref ∧ ∀ c ∈ c1wInfo.raw_hist, c ≠ 0 → ref ≤ c) ∧
      c1wInfo.hist = c1wInfo.raw_hist.map
        (fun c => if c = 0 then 0 else (ref : ℚ) / (c : ℚ)) :=
  ⟨by decide,
    reweight_bin_weights ["A"] "pt" [0, 1, 2, 3, 4] recC1w resC1w (by decide)
      (by decide) ("A", c1wInfo) (by decide)⟩

/-- Counterexample to C1's example: the rows `recC1` realize exactly
the spec's example histogram `[50, 100, 0, 20]`, and on them the
reweighting calculator raises (produces no result at all) because the
second-to-last bin count 0 fails the tail-bin check — so no weight
array `[0.4, 0.2, 0, 1.0]` is ever produced for that histogram. -/
theorem reweight_example_hist_raises :
    histogram [0, 1, 2, 3, 4] (selVals "pt" "A" recC1) = [50, 100, 0, 20] ∧
    (prepareReweightInfo ["A"] "pt" [0, 1, 2, 3, 4] recC1).toOption = none :=
  ⟨by decide, by decide⟩

theorem processAll_length {bins : List ℚ} {rw : String} {rec : List Row} :
    ∀ {labels : List String} {pre : List (String × LabelPre)},
    processAll bins rw rec labels = Except.ok pre → pre.length = labels.length := by
  intro labels
  induction labels with
  | nil =>
      intro pre h
      simp only [processAll, Except.ok.injEq] at h
      subst h
      rfl
  | cons label rest ih =>
      intro pre h
      simp only [processAll] at h
      cases hl : processLabel bins rw rec label with
      | error e => rw [hl] at h; exact absurd h (by simp)
      | ok x =>
          rw [hl] at h
          cases hr : processAll bins rw rec rest with
          | error e => rw [hr] at h; exact absurd h (by simp)
          | ok xs =>
              rw [hr] at h
              rw [Except.ok.injEq] at h
              subst h
              simp [ih hr]

/-- C2: after a successful run of the reweighting calculator there is
a global minimum `m` of the per-label reference counts, every label's
class weight equals `m` divided by that label's own reference count,
no class weight exceeds 1, and a label whose reference count attains
the minimum has class weight exactly 1. -/
theorem class_weight_global_min (labels : List String) (rw : String) (bins : List ℚ)
    (rec : List Row) (res : List (String × LabelInfo))
    (hb : 2 ≤ bins.length) (hlne : labels ≠ [])
    (hok : prepareReweightInfo labels rw bins rec = Except.ok res) :
    ∃ m : ℕ, 0 < m ∧
      m ∈ res.map (fun e => refVal e.2.raw_hist) ∧
      (∀ r ∈ res.map (fun e => refVal e.2.raw_hist), m ≤ r) ∧
      ∀ e ∈ res,
        e.2.class_wgt = (m : ℚ) / (refVal e.2.raw_hist : ℚ) ∧
        e.2.class_wgt ≤ 1 ∧
        (refVal e.2.raw_hist = m → e.2.class_wgt = 1) := by
  unfold prepareReweightInfo at hok
  cases hall : processAll bins rw rec labels with
  | error e => rw [hall] at hok; exact absurd hok (by simp)
  | ok pre =>
      rw [hall] at hok
      simp only [Except.ok.injEq] at hok
      subst hok
      have hrefeq : ∀ x ∈ pre, x.2.ref = refVal x.2.raw_hist := fun x hx =>
        (processLabel_ok (processAll_ok_mem hall x hx)).2.2.1
      have hrefpos : ∀ x ∈ pre, 0 < x.2.ref := by
        intro x hx
        obtain ⟨htail, hraw, href, _⟩ := processLabel_ok (processAll_ok_mem hall x hx)
        have hnil := histogram_ne_nil hb (selVals rw x.1 rec)
        have hspec := refVal_spec hnil htail
        rw [href, hraw]
        exact hspec.2.1
      have hpne : pre ≠ [] := by
        intro hq
        have hlen := processAll_length hall
        rw [hq] at hlen
        cases labels with
        | nil => exact hlne rfl
        | cons a b => simp at hlen
      have hmapne : pre.map (fun x => x.2.ref) ≠ [] := by
        cases pre with
        | nil => exact absurd rfl hpne
        | cons a b => simp
      cases hmin : listMin (pre.map (fun x => x.2.ref)) with
      | none => exact absurd (listMin_none hmin) hmapne
      | some m =>
          have hmmem := listMin_mem hmin
          rcases List.mem_map.mp hmmem with ⟨x0, hx0, hx0m⟩
          refine ⟨m, ?_, ?_, ?_, ?_⟩
          · exact hx0m ▸ hrefpos x0 hx0
          · rw [List.map_map]
            refine List.mem_map.mpr ⟨x0, hx0, ?_⟩
            show refVal x0.2.raw_hist = m
            rw [← hrefeq x0 hx0]
            exact hx0m
          · rw [List.map_map]
            intro r hr
            rcases List.mem_map.mp hr with ⟨x, hx, hxr⟩
            have : r = x.2.ref := by rw [← hxr]; exact (hrefeq x hx).symm
            subst this
            exact listMin_le hmin x.2.ref (List.mem_map.mpr ⟨x, hx, rfl⟩)
          · intro e he
            rcases List.mem_map.mp he with ⟨x, hx, rfl⟩
            have hle : m ≤ x.2.ref :=
              listMin_le hmin x.2.ref (List.mem_map.mpr ⟨x, hx, rfl⟩)
            have hpos : 0 < x.2.ref := hrefpos x hx
            refine ⟨?_, ?_, ?_⟩
            · show ((some m).getD 0 : ℚ) / (x.2.ref : ℚ) =
                (m : ℚ) / (refVal x.2.raw_hist : ℚ)
              rw [← hrefeq x hx]
              rfl
            · show ((some m).getD 0 : ℚ) / (x.2.ref : ℚ) ≤ 1
              rw [Option.getD_some, div_le_one (by exact_mod_cast hpos)]
              exact_mod_cast hle
            · intro hrm
              show ((some m).getD 0 : ℚ) / (x.2.ref : ℚ) = 1
              have hxm : x.2.ref = m := by
                rw [hrefeq x hx]
                exact hrm
              rw [Option.getD_some, hxm]
              exact div_self (by
                exact_mod_cast Nat.pos_iff_ne_zero.mp (hxm ▸ hpos))

/-- Witness for `class_weight_global_min` on `recC2`: reference counts
`{A: 20, B: 50}` give class weights `[1, 2/5]`, i.e. `A` gets 1.0 and
`B` gets 0.4. -/
theorem class_weight_global_min_witness :
    prepareReweightInfo ["A", "B"] "pt" [0, 1, 2] recC2 = Except.ok resC2 ∧
    resC2.map (fun e => e.2.class_wgt) = [1, 2/5] ∧
    ∃ m : ℕ, 0 < m ∧
      m ∈ resC2.map (fun e => refVal e.2.raw_hist) ∧
      (∀ r ∈ resC2.map (fun e => refVal e.2.raw_hist), m ≤ r) ∧
      ∀ e ∈ resC2,
        e.2.class_wgt = (m : ℚ) / (refVal e.2.raw_hist : ℚ) ∧
        e.2.class_wgt ≤ 1 ∧
        (refVal e.2.raw_hist = m → e.2.class_wgt = 1) :=
  ⟨by decide, by decide,
    class_weight_global_min ["A", "B"] "pt" [0, 1, 2] recC2 resC2
      (by decide) (by decide) (by decide)⟩

/-- C3: the reweighting calculator raises (produces no metadata) if
and only if, for some label, at least one of the last two bins of
that label's raw histogram has a count strictly below 10. -/
theorem insufficient_tail_iff (labels : List String) (rw : String) (bins : List ℚ)
    (rec : List Row) (hb : 2 ≤ bins.length) (hlne : labels ≠ []) :
    ((prepareReweightInfo labels rw bins rec).toOption = none ↔
      ∃ label ∈ labels, ∃ c ∈ (histogram bins (selVals rw label rec)).drop
        ((histogram bins (selVals rw label rec)).length - 2), c < 10) := by
  rw [prepare_error_iff]
  constructor
  · rintro ⟨l, hl, ht⟩
    exact ⟨l, hl, (tailTooSmall_iff _).mp ht⟩
  · rintro ⟨l, hl, hc⟩
    exact ⟨l, hl, (tailTooSmall_iff _).mpr hc⟩

/-- Witness for `insufficient_tail_iff`: the rows `recC3` realize the
spec's example histogram `[100, 100, 5, 3]`, whose last two bins are
below 10, and the calculator indeed raises on them. -/
theorem insufficient_tail_iff_witness :
    histogram [0, 1, 2, 3, 4] (selVals "pt" "A" recC3) = [100, 100, 5, 3] ∧
    (prepareReweightInfo ["A"] "pt" [0, 1, 2, 3, 4] recC3).toOption = none ∧
    ((prepareReweightInfo ["A"] "pt" [0, 1, 2, 3, 4] recC3).toOption = none ↔
      ∃ label ∈ ["A"], ∃ c ∈ (histogram [0, 1, 2, 3, 4] (selVals "pt" label recC3)).drop
        ((histogram [0, 1, 2, 3, 4] (selVals "pt" label recC3)).length - 2), c < 10) :=
  ⟨by decide, by decide,
    insufficient_tail_iff ["A"] "pt" [0, 1, 2, 3, 4] recC3 (by decide) (by decide)⟩

/-- C10: if `_prepare_reweight_info` raises, `_make_weights`
propagates the exception and the metadata object is unchanged — in
particular `reweight_info` is never assigned, so no
partially-computed reweight info can reach `writeMetadata`. -/
theorem reweight_info_unassigned_on_error (m : MetaState) (labels : List String)
    (rw : String) (bins : List ℚ) (rec : List Row) (e : String)
    (h : prepareReweightInfo labels rw bins rec = Except.error e) :
    (make_weights m labels rw bins rec).2 = m ∧
    (make_weights m labels rw bins rec).1 = Except.error e := by
  unfold make_weights
  rw [h]
  exact ⟨rfl, rfl⟩

/-- Witness for `reweight_info_unassigned_on_error` on the
single-row sample `recC10`, whose tail-bin check fails. -/
theorem reweight_info_unassigned_on_error_witness :
    prepareReweightInfo ["A"] "pt" [0, 1, 2] recC10 =
      Except.error "Not enough events for cateogry A" ∧
    ((make_weights ⟨none⟩ ["A"] "pt" [0, 1, 2] recC10).2 = (⟨none⟩ : MetaState) ∧
     (make_weights ⟨none⟩ ["A"] "pt" [0, 1, 2] recC10).1 =
       Except.error "Not enough events for cateogry A") :=
  ⟨by decide,
    reweight_info_unassigned_on_error ⟨none⟩ ["A"] "pt" [0, 1, 2] recC10
      "Not enough events for cateogry A" (by decide)⟩

theorem foldl_preserves_mem {α β : Type} (P : β → Prop) (f : β → α → β) :
    ∀ (l : List α) (b : β), (∀ a ∈ l, ∀ b2, P b2 → P (f b2 a)) → P b → P (l.foldl f b)
  | [], b, _, hb => hb
  | x :: xs, b, hf, hb =>
      foldl_preserves_mem P f xs (f b x)
        (fun a ha b2 hb2 => hf a (List.mem_cons_of_mem x ha) b2 hb2)
        (hf x (List.mem_cons_self x xs) b hb)

/-- C8: after the file enumerator runs on any directory tree, the
file-path list and the event-count list have equal length, and the
recorded total event count equals the sum of the event-count list. -/
theorem filelist_lengths_and_total (walk : List (String × List String))
    (getNum : String → ℕ) (ts : Bool) :
    (updateFilelist walk getNum ts).1.length = (updateFilelist walk getNum ts).2.length ∧
    totalEvents walk getNum ts = (updateFilelist walk getNum ts).2.sum := by
  refine ⟨?_, rfl⟩
  unfold updateFilelist
  refine foldl_preserves_mem
    (fun acc : List String × List ℕ => acc.1.length = acc.2.length) _ walk ([], [])
    ?_ rfl
  intro d _ b hb
  dsimp only
  split
  · exact hb
  · split
    · exact hb
    · split
      · exact hb
      · refine foldl_preserves_mem
          (fun acc : List String × List ℕ => acc.1.length = acc.2.length) _ d.2 b ?_ hb
        intro f _ b2 hb2
        dsimp only
        split
        · exact hb2
        · split
          · simp [hb2]
          · exact hb2

theorem foldl_erase_not_mem {v : String} :
    ∀ (ws : List String) (l : List String), v ∉ l →
      v ∉ ws.foldl (fun acc w => acc.erase w) l
  | [], l, h => h
  | w :: ws, l, h => by
      simp only [List.foldl_cons]
      refine foldl_erase_not_mem ws (l.erase w) ?_
      intro hc
      exact h (List.mem_of_mem_erase hc)

theorem foldl_erase_removes {v : String} :
    ∀ (ws : List String) (l : List String), l.Nodup → v ∈ ws →
      v ∉ ws.foldl (fun acc w => acc.erase w) l
  | [], l, _, hv => by simp at hv
  | w :: ws, l, hnd, hv => by
      simp only [List.foldl_cons]
      rcases List.mem_cons.mp hv with h1 | h1
      · subst h1
        refine foldl_erase_not_mem ws (l.erase v) ?_
        intro hc
        exact ((List.Nodup.mem_erase_iff hnd).mp hc).1 rfl
      · exact foldl_erase_removes ws (l.erase w) (hnd.erase w) h1

/-- C9: a field name listed in the blacklist or among the label
fields is absent from the final selected variable list, even if it
matched a configured group pattern; entries that matched nothing are
silently tolerated (`List.erase` of an absent element, like the
swallowed `ValueError`, is a no-op). -/
theorem blacklist_labels_removed (all_branches : List String)
    (var_groups : List (String × List (String → Bool) × Option ℕ))
    (blacklist labels : List String)
    (hnd : all_branches.Nodup) :
    ∀ v, (v ∈ blacklist ∨ v ∈ labels) →
      v ∉ (make_varlist all_branches var_groups blacklist labels).1 := by
  intro v hv
  show v ∉ (blacklist ++ labels).foldl (fun acc w => acc.erase w)
    (all_branches.filter (fun k => var_groups.any (fun g => groupMatches g k)))
  refine foldl_erase_removes (blacklist ++ labels) _ (hnd.filter _) ?_
  rw [List.mem_append]
  exact hv

/-- Witness for `blacklist_labels_removed`: `pf_b` matches the
configured group pattern and is blacklisted, so it is absent from the
final list (and the label entry `fj_label`, which matches no group,
is tolerated without error). -/
theorem blacklist_labels_removed_witness :
    (["fj_pt", "pf_a", "pf_b"] : List String).Nodup ∧
    ("pf_b" ∈ (["pf_b"] : List String) ∨ "pf_b" ∈ (["fj_label"] : List String)) ∧
    "pf_b" ∉ (make_varlist ["fj_pt", "pf_a", "pf_b"]
      [("pf", ["pf".isPrefixOf], none)] ["pf_b"] ["fj_label"]).1 :=
  ⟨by decide, Or.inl (by decide),
    blacklist_labels_removed ["fj_pt", "pf_a", "pf_b"]
      [("pf", ["pf".isPrefixOf], none)] ["pf_b"] ["fj_label"]
      (by decide) "pf_b" (Or.inl (by decide))⟩

theorem getD_zeros : ∀ {l : List ℚ}, (∀ x ∈ l, x = 0) → ∀ i : ℕ, l.getD i 0 = 0
  | [], _, i => by cases i <;> rfl
  | x :: xs, h, 0 => h x (List.mem_cons_self x xs)
  | x :: xs, h, i + 1 =>
      getD_zeros (fun y hy => h y (List.mem_cons_of_mem x hy)) i

theorem mem_insertQ : ∀ {x a : ℚ} {l : List ℚ}, x ∈ insertQ a l → x = a ∨ x ∈ l := by
  intro x a l
  induction l with
  | nil => intro h; simp [insertQ] at h; exact Or.inl h
  | cons y ys ih =>
      intro h
      simp only [insertQ] at h
      by_cases hle : a ≤ y
      · rw [if_pos hle] at h
        rcases List.mem_cons.mp h with h1 | h1
        · exact Or.inl h1
        · exact Or.inr h1
      · rw [if_neg hle] at h
        rcases List.mem_cons.mp h with h1 | h1
        · exact Or.inr (h1 ▸ List.mem_cons_self y ys)
        · rcases ih h1 with h2 | h2
          · exact Or.inl h2
          · exact Or.inr (List.mem_cons_of_mem y h2)

theorem mem_sortQ : ∀ {x : ℚ} {l : List ℚ}, x ∈ sortQ l → x ∈ l := by
  intro x l
  induction l with
  | nil => intro h; simp [sortQ] at h
  | cons y ys ih =>
      intro h
      simp only [sortQ] at h
      rcases mem_insertQ h with h1 | h1
      · exact h1 ▸ List.mem_cons_self y ys
      · exact List.mem_cons_of_mem y (ih h1)

theorem percentileQ_zeros {l : List ℚ} (h : ∀ x ∈ l, x = 0) (p : ℚ) :
    percentileQ l p = 0 := by
  have hz : ∀ x ∈ sortQ l, x = 0 := fun x hx => h x (mem_sortQ hx)
  simp only [percentileQ]
  split
  · rfl
  · rw [getD_zeros hz, getD_zeros hz]
    ring

theorem minQD_zeros {l : List ℚ} (h : ∀ x ∈ l, x = 0) : minQD l = 0 := by
  cases l with
  | nil => rfl
  | cons x xs =>
      show xs.foldl min x = 0
      refine foldl_preserves_mem (fun b : ℚ => b = 0) min xs x ?_
        (h x (List.mem_cons_self x xs))
      intro a ha b hb
      rw [hb, h a (List.mem_cons_of_mem x ha)]
      exact min_self 0

theorem maxQD_zeros {l : List ℚ} (h : ∀ x ∈ l, x = 0) : maxQD l = 0 := by
  cases l with
  | nil => rfl
  | cons x xs =>
      show xs.foldl max x = 0
      refine foldl_preserves_mem (fun b : ℚ => b = 0) max xs x ?_
        (h x (List.mem_cons_self x xs))
      intro a ha b hb
      rw [hb, h a (List.mem_cons_of_mem x ha)]
      exact max_self 0

theorem meanQ_zeros {l : List ℚ} (h : ∀ x ∈ l, x = 0) : meanQ l = 0 := by
  unfold meanQ
  rw [List.sum_eq_zero h, zero_div]

theorem varQ_zeros {l : List ℚ} (h : ∀ x ∈ l, x = 0) : varQ l = 0 := by
  unfold varQ
  rw [List.sum_eq_zero, zero_div]
  intro y hy
  rcases List.mem_map.mp hy with ⟨x, hx, rfl⟩
  rw [h x hx, meanQ_zeros h]
  ring

theorem statsOf_zeros (size : Option ℤ) {a : List ℚ} (h : ∀ x ∈ a, x = 0) :
    statsOf size a =
      { size := size, median := 0, upper := 0, min := 0, max := 0,
        mean := 0, var := 0 } := by
  unfold statsOf
  rw [percentileQ_zeros h, percentileQ_zeros h, minQD_zeros h, maxQD_zeros h,
    meanQ_zeros h, varQ_zeros h]

/-- C5 (amended): on the ragged path `np.nan_to_num` replaces NaN by
0 but replaces the infinities by the largest/most negative finite
float, not by 0.  A ragged variable whose sampled values are entirely
NaN yields an all-zero statistics record (`var` is the square of the
stored std, and std = 0 exactly when var = 0); a variable with
infinite values instead gets statistics of magnitude `FMAX` — see
`inf_not_replaced_by_zero`. -/
theorem all_nan_stats_zero (varSize : Option ℕ) (rows : List (List FVal))
    (hne : rows.flatten ≠ [])
    (hnan : ∀ v ∈ rows.flatten, v = FVal.nan) :
    (makeInfo varSize (Column.ragged rows)).median = 0 ∧
    (makeInfo varSize (Column.ragged rows)).upper = 0 ∧
    (makeInfo varSize (Column.ragged rows)).min = 0 ∧
    (makeInfo varSize (Column.ragged rows)).max = 0 ∧
    (makeInfo varSize (Column.ragged rows)).mean = 0 ∧
    (makeInfo varSize (Column.ragged rows)).var = 0 := by
  have hz : ∀ x ∈ (rows.flatten).map nanToNum, x = 0 := by
    intro x hx
    rcases List.mem_map.mp hx with ⟨v, hv, rfl⟩
    rw [hnan v hv]
    rfl
  simp only [makeInfo]
  rw [statsOf_zeros _ hz]
  exact ⟨rfl, rfl, rfl, rfl, rfl, rfl⟩

/-- Witness for `all_nan_stats_zero`: three NaN values in two ragged
rows give all-zero statistics. -/
theorem all_nan_stats_zero_witness :
    ([[FVal.nan, FVal.nan], [FVal.nan]] : List (List FVal)).flatten ≠ [] ∧
    ((makeInfo none (Column.ragged [[FVal.nan, FVal.nan], [FVal.nan]])).median = 0 ∧
     (makeInfo none (Column.ragged [[FVal.nan, FVal.nan], [FVal.nan]])).upper = 0 ∧
     (makeInfo none (Column.ragged [[FVal.nan, FVal.nan], [FVal.nan]])).min = 0 ∧
     (makeInfo none (Column.ragged [[FVal.nan, FVal.nan], [FVal.nan]])).max = 0 ∧
     (makeInfo none (Column.ragged [[FVal.nan, FVal.nan], [FVal.nan]])).mean = 0 ∧
     (makeInfo none (Column.ragged [[FVal.nan, FVal.nan], [FVal.nan]])).var = 0) :=
  ⟨by decide,
    all_nan_stats_zero none [[FVal.nan, FVal.nan], [FVal.nan]] (by decide) (by decide)⟩

/-- Counterexample to C5 as stated: a ragged variable whose only
sampled value is +infinity gets minimum statistic `FMAX` (the largest
finite float64), not 0 — `np.nan_to_num` does not replace infinities
with zero. -/
theorem inf_not_replaced_by_zero :
    (makeInfo none (Column.ragged [[FVal.pinf]])).min = FMAX ∧ FMAX ≠ 0 :=
  ⟨rfl, by decide⟩

/-- C6: for a ragged variable the stored size is the configured fixed
size when a truthy one is provided, and otherwise
`round(percentile(lengths, 95))` of the pre-flatten per-row lengths
(Python 2 `round`: ties away from zero); for a non-ragged variable
the stored size is `None`. -/
theorem ragged_size_inference (varSize : Option ℕ) (rows : List (List FVal))
    (vals : List ℚ) :
    (truthySize varSize = true →
      (makeInfo varSize (Column.ragged rows)).size =
        some ((varSize.getD 0 : ℕ) : ℤ)) ∧
    (truthySize varSize = false →
      (makeInfo varSize (Column.ragged rows)).size =
        some (roundHalfAway (percentileQ (rows.map (fun r => (r.length : ℚ))) 95))) ∧
    (makeInfo varSize (Column.flat vals)).size = none := by
  refine ⟨?_, ?_, rfl⟩
  · intro ht
    show (statsOf (if truthySize varSize then _ else _) _).size = _
    rw [if_pos ht]
    rfl
  · intro hf
    show (statsOf (if truthySize varSize then _ else _) _).size = _
    rw [if_neg (by rw [hf]; exact Bool.false_ne_true)]
    rfl

/-- Witness for `ragged_size_inference`: no configured size and
per-row lengths `[1,2,2,3,3,3,3,3,3,10]` give
`round(percentile(lengths, 95)) = round(6.85) = 7`; lengths
`[1,1,1,1,1,1,1,1,2,2,3]` hit the exact tie `percentile = 2.5`,
which Python 2's `round` takes to size 3, away from zero. -/
theorem ragged_size_inference_witness :
    truthySize none = false ∧
    (makeInfo none (Column.ragged rowsC6)).size = some 7 ∧
    percentileQ (rowsC6.map (fun r => (r.length : ℚ))) 95 = 137 / 20 ∧
    percentileQ (rowsTie.map (fun r => (r.length : ℚ))) 95 = 5 / 2 ∧
    (makeInfo none (Column.ragged rowsTie)).size = some 3 :=
  ⟨rfl, ((ragged_size_inference none rowsC6 []).2.1 rfl).trans (by decide),
    by decide, by decide,
    ((ragged_size_inference none rowsTie []).2.1 rfl).trans (by decide)⟩

theorem charsLt_asymm : ∀ a b : List Char,
    charsLt a b = true → charsLt b a = false
  | [], [], h => by simp [charsLt] at h
  | [], _ :: _, _ => rfl
  | _ :: _, [], h => by simp [charsLt] at h
  | c1 :: t1, c2 :: t2, h => by
      unfold charsLt at h ⊢
      by_cases h1 : c1.toNat < c2.toNat
      · rw [if_neg (by omega), if_pos h1]
      · by_cases h2 : c2.toNat < c1.toNat
        · rw [if_neg h1, if_pos h2] at h
          cases h
        · rw [if_neg h1, if_neg h2] at h
          rw [if_neg h2, if_neg h1]
          exact charsLt_asymm t1 t2 h

theorem strLtB_le {a b : String} (h : strLtB a b = true) : strLeB a b = true := by
  unfold strLeB
  rw [show strLtB b a = false from charsLt_asymm a.data b.data h]
  rfl

theorem strLeB_total {a b : String} (h : ¬ strLeB a b = true) : strLeB b a = true := by
  unfold strLeB at h ⊢
  rw [Bool.not_eq_true, Bool.not_eq_false'] at h
  rw [Bool.not_eq_true']
  exact charsLt_asymm b.data a.data h

theorem pyDSer_keysSorted : ∀ kvs : PyDict,
    pyDKeysSorted kvs = true → dKeysSorted (pyDSer kvs) = true
  | PyDict.dnil, _ => rfl
  | PyDict.dcons _ _ PyDict.dnil, _ => rfl
  | PyDict.dcons k v (PyDict.dcons k1 v1 rest), h => by
      have h' : (strLtB k k1 && pyDKeysSorted (PyDict.dcons k1 v1 rest)) = true := h
      rw [Bool.and_eq_true] at h'
      have ih := pyDSer_keysSorted (PyDict.dcons k1 v1 rest) h'.2
      show (strLtB k k1 &&
        dKeysSorted (JDict.dcons k1 (pySer v1) (pyDSer rest))) = true
      rw [Bool.and_eq_true]
      exact ⟨h'.1, ih⟩

theorem sortD_sorted_id : ∀ d : JDict, dKeysSorted d = true → sortD d = d
  | JDict.dnil, _ => rfl
  | JDict.dcons _ _ JDict.dnil, _ => rfl
  | JDict.dcons k v (JDict.dcons k1 v1 rest), h => by
      have h' : (strLtB k k1 && dKeysSorted (JDict.dcons k1 v1 rest)) = true := h
      rw [Bool.and_eq_true] at h'
      have ih := sortD_sorted_id (JDict.dcons k1 v1 rest) h'.2
      show dinsert k v (sortD (JDict.dcons k1 v1 rest)) = _
      rw [ih]
      show (if strLeB k k1 = true then _ else _) = _
      rw [if_pos (strLtB_le h'.1)]

mutual
theorem pyRound : ∀ v : PyVal, pyGood v = true → jLoad (pySer v) = v
  | PyVal.pynone, _ => rfl
  | PyVal.pybool _, _ => rfl
  | PyVal.pyint _, _ => rfl
  | PyVal.pyfloat _, _ => rfl
  | PyVal.pystr _, _ => rfl
  | PyVal.pylist xs, h => by
      show PyVal.pylist (jLLoad (pyLSer xs)) = PyVal.pylist xs
      rw [pyLRound xs h]
  | PyVal.pytuple _, h => by simp [pyGood] at h
  | PyVal.pydict kvs, h => by
      have h' : (pyDKeysSorted kvs && pyDGood kvs) = true := h
      rw [Bool.and_eq_true] at h'
      show jLoad (JVal.jobj (sortD (pyDSer kvs))) = PyVal.pydict kvs
      rw [sortD_sorted_id (pyDSer kvs) (pyDSer_keysSorted kvs h'.1)]
      show PyVal.pydict (jDLoad (pyDSer kvs)) = PyVal.pydict kvs
      rw [pyDRound kvs h'.2]
theorem pyLRound : ∀ xs : PyList, pyLGood xs = true → jLLoad (pyLSer xs) = xs
  | PyList.nil, _ => rfl
  | PyList.cons v vs, h => by
      have h' : (pyGood v && pyLGood vs) = true := h
      rw [Bool.and_eq_true] at h'
      show PyList.cons (jLoad (pySer v)) (jLLoad (pyLSer vs)) = PyList.cons v vs
      rw [pyRound v h'.1, pyLRound vs h'.2]
theorem pyDRound : ∀ kvs : PyDict, pyDGood kvs = true → jDLoad (pyDSer kvs) = kvs
  | PyDict.dnil, _ => rfl
  | PyDict.dcons k v rest, h => by
      have h' : (pyGood v && pyDGood rest) = true := h
      rw [Bool.and_eq_true] at h'
      show PyDict.dcons k (jLoad (pySer v)) (jDLoad (pyDSer rest)) =
        PyDict.dcons k v rest
      rw [pyRound v h'.1, pyDRound rest h'.2]
end

theorem dKeysSortedLe_cons (k : String) (v : JVal) (d : JDict) :
    dKeysSortedLe (JDict.dcons k v d) = (dHeadLe k d && dKeysSortedLe d) := by
  cases d <;> rfl

theorem dinsert_headLe {k0 k : String} (v : JVal) :
    ∀ d : JDict, dHeadLe k0 d = true → strLeB k0 k = true →
      dHeadLe k0 (dinsert k v d) = true
  | JDict.dnil, _, hk => hk
  | JDict.dcons k1 v1 rest, h, hk => by
      show dHeadLe k0 (if strLeB k k1 = true then _ else _) = true
      by_cases h1 : strLeB k k1 = true
      · rw [if_pos h1]
        exact hk
      · rw [if_neg h1]
        exact h

theorem dinsert_sortedLe (k : String) (v : JVal) :
    ∀ d : JDict, dKeysSortedLe d = true → dKeysSortedLe (dinsert k v d) = true
  | JDict.dnil, _ => rfl
  | JDict.dcons k1 v1 rest, h => by
      rw [dKeysSortedLe_cons, Bool.and_eq_true] at h
      show dKeysSortedLe (if strLeB k k1 = true then _ else _) = true
      by_cases h1 : strLeB k k1 = true
      · rw [if_pos h1, dKeysSortedLe_cons, Bool.and_eq_true]
        refine ⟨h1, ?_⟩
        rw [dKeysSortedLe_cons, Bool.and_eq_true]
        exact h
      · rw [if_neg h1, dKeysSortedLe_cons, Bool.and_eq_true]
        exact ⟨dinsert_headLe v rest h.1 (strLeB_total h1),
          dinsert_sortedLe k v rest h.2⟩

theorem sortD_sortedLe : ∀ d : JDict, dKeysSortedLe (sortD d) = true
  | JDict.dnil => rfl
  | JDict.dcons k v rest => dinsert_sortedLe k v (sortD rest) (sortD_sortedLe rest)

theorem jDAllSorted_dinsert (k : String) (v : JVal) :
    ∀ d : JDict, jAllSorted v = true → jDAllSorted d = true →
      jDAllSorted (dinsert k v d) = true
  | JDict.dnil, hv, _ => by
      show (jAllSorted v && true) = true
      rw [Bool.and_eq_true]
      exact ⟨hv, rfl⟩
  | JDict.dcons k1 v1 rest, hv, hd => by
      have hd' : (jAllSorted v1 && jDAllSorted rest) = true := hd
      rw [Bool.and_eq_true] at hd'
      show jDAllSorted (if strLeB k k1 = true then _ else _) = true
      by_cases h1 : strLeB k k1 = true
      · rw [if_pos h1]
        show (jAllSorted v && (jAllSorted v1 && jDAllSorted rest)) = true
        rw [Bool.and_eq_true, Bool.and_eq_true]
        exact ⟨hv, hd'⟩
      · rw [if_neg h1]
        show (jAllSorted v1 && jDAllSorted (dinsert k v rest)) = true
        rw [Bool.and_eq_true]
        exact ⟨hd'.1, jDAllSorted_dinsert k v rest hv hd'.2⟩

theorem jDAllSorted_sortD : ∀ d : JDict, jDAllSorted d = true →
    jDAllSorted (sortD d) = true
  | JDict.dnil, _ => rfl
  | JDict.dcons k v rest, h => by
      have h' : (jAllSorted v && jDAllSorted rest) = true := h
      rw [Bool.and_eq_true] at h'
      show jDAllSorted (dinsert k v (sortD rest)) = true
      exact jDAllSorted_dinsert k v (sortD rest) h'.1
        (jDAllSorted_sortD rest h'.2)

mutual
theorem pySer_allSorted : ∀ v : PyVal, jAllSorted (pySer v) = true
  | PyVal.pynone => rfl
  | PyVal.pybool _ => rfl
  | PyVal.pyint _ => rfl
  | PyVal.pyfloat _ => rfl
  | PyVal.pystr _ => rfl
  | PyVal.pylist xs => pyLSer_allSorted xs
  | PyVal.pytuple xs => pyLSer_allSorted xs
  | PyVal.pydict kvs => by
      show (dKeysSortedLe (sortD (pyDSer kvs)) &&
        jDAllSorted (sortD (pyDSer kvs))) = true
      rw [Bool.and_eq_true]
      exact ⟨sortD_sortedLe _, jDAllSorted_sortD _ (pyDSer_allSorted kvs)⟩
theorem pyLSer_allSorted : ∀ xs : PyList, jLAllSorted (pyLSer xs) = true
  | PyList.nil => rfl
  | PyList.cons v vs => by
      show (jAllSorted (pySer v) && jLAllSorted (pyLSer vs)) = true
      rw [Bool.and_eq_true]
      exact ⟨pySer_allSorted v, pyLSer_allSorted vs⟩
theorem pyDSer_allSorted : ∀ kvs : PyDict, jDAllSorted (pyDSer kvs) = true
  | PyDict.dnil => rfl
  | PyDict.dcons _ v rest => by
      show (jAllSorted (pySer v) && jDAllSorted (pyDSer rest)) = true
      rw [Bool.and_eq_true]
      exact ⟨pySer_allSorted v, pyDSer_allSorted rest⟩
end

theorem lookupD_dropPrivate {k : String} (hk : isPrivate k = false) :
    ∀ kvs : PyDict, lookupD k (dropPrivate kvs) = lookupD k kvs
  | PyDict.dnil => rfl
  | PyDict.dcons k1 v rest => by
      show lookupD k (if isPrivate k1 then dropPrivate rest
        else PyDict.dcons k1 v (dropPrivate rest)) = _
      by_cases h1 : isPrivate k1 = true
      · rw [if_pos h1]
        have hne : k ≠ k1 := by
          intro he
          rw [he, h1] at hk
          cases hk
        show lookupD k (dropPrivate rest) =
          (if k = k1 then some v else lookupD k rest)
        rw [if_neg hne]
        exact lookupD_dropPrivate hk rest
      · rw [if_neg h1]
        show (if k = k1 then some v else lookupD k (dropPrivate rest)) =
          (if k = k1 then some v else lookupD k rest)
        by_cases h2 : k = k1
        · rw [if_pos h2, if_pos h2]
        · rw [if_neg h2, if_neg h2]
          exact lookupD_dropPrivate hk rest

/-- C7 (amended): writing the attribute dict and loading the written
document reproduces every non-private field literally, provided no
field value contains a tuple (JSON has no tuples: a tuple-valued
field is read back as a list — see `tuple_field_not_reproduced`);
dict key order is normalized to sorted order by `sort_keys=True`, and
every object level of the written document has sorted keys. -/
theorem metadata_roundtrip_nonprivate (d : PyDict)
    (hg : pyGood (PyVal.pydict d) = true) :
    (∀ k : String, isPrivate k = false →
      lookupD k (loadMeta (writeMeta d)) = lookupD k d) ∧
    jAllSorted (writeMeta d) = true := by
  constructor
  · intro k hk
    have hload : jLoad (writeMeta d) = PyVal.pydict d := pyRound _ hg
    unfold loadMeta
    rw [hload]
    exact lookupD_dropPrivate hk d
  · exact pySer_allSorted _

/-- Witness for `metadata_roundtrip_nonprivate` on a two-field
attribute dict with one private field. -/
theorem metadata_roundtrip_nonprivate_witness :
    pyGood (PyVal.pydict dW) = true ∧
    isPrivate "treename" = false ∧
    lookupD "treename" (loadMeta (writeMeta dW)) = lookupD "treename" dW ∧
    jAllSorted (writeMeta dW) = true :=
  ⟨by decide, by decide,
    (metadata_roundtrip_nonprivate dW (by decide)).1 "treename" (by decide),
    (metadata_roundtrip_nonprivate dW (by decide)).2⟩

/-- Counterexample to C7 as stated: a tuple-valued non-private field
(the documented shape of `var_groups`) is serialized as a JSON array
and loaded back as a Python list, which is not equal to the written
tuple. -/
theorem tuple_field_not_reproduced :
    lookupD "var_groups" dT = some (PyVal.pytuple PyList.nil) ∧
    lookupD "var_groups" (loadMeta (writeMeta dT)) =
      some (PyVal.pylist PyList.nil) ∧
    some (PyVal.pylist PyList.nil) ≠ some (PyVal.pytuple PyList.nil) :=
  ⟨rfl, rfl, by decide⟩
